import Mathlib

/-!
Verification of the DHT record store (`src/network/p2p/kad_store.rs`).

The store keeps regular records in an external persistent database and
provider records in an in-memory table (a map from record key to a
distance-ordered list of provider records), together with the set of
provider records whose provider is the local peer.

Shallow embedding conventions:
  * `PeerId` and `RecordKey` are modelled as `Nat` (both are opaque
    identifiers in the source; the XOR distance metric of libp2p is an
    external capability and is modelled as an arbitrary function
    `Dist : RecordKey → PeerId → Nat`).
  * `Instant` and `Duration` are modelled in whole seconds as `Nat`.
    Rust `Instant` subtraction saturates at zero, which is `Nat`
    subtraction; `Duration::as_secs` after `.max(Duration::from_secs 1)`
    equals `max (t - now) 1` at whole-second granularity.
  * the `as u32` cast in the source is `% 4294967296`.
  * a Rust panic (`.expect`) is the `.panics` value of `PanicOr`.
  * the external `Database` (crate `data`, not part of the analysed
    sources) is modelled from the spec, see `Store.put` and `Store.get`.
-/

namespace KadStore

abbrev PeerId := Nat

abbrev RecordKey := Nat

/-- Distance Metric: an external capability (libp2p XOR metric); modelled
as an arbitrary function from a key and a peer to a comparable value. -/
abbrev Dist := RecordKey → PeerId → Nat

/-- Configuration for a `Store` (source lines 37-49). -/
structure StoreConfig where
  max_records : Nat
  max_value_bytes : Nat
  max_providers_per_key : Nat
  max_provided_keys : Nat
deriving DecidableEq

/-- libp2p `ProviderRecord`: key, provider, optional expiry, addresses.
Addresses are opaque; modelled as a list of naturals. -/
structure ProviderRecord where
  key : RecordKey
  provider : PeerId
  expires : Option Nat
  addresses : List Nat
deriving DecidableEq

/-- libp2p `kad::Record`: the domain value record. -/
structure KadRecord where
  key : RecordKey
  value : List Nat
  publisher : Option PeerId
  expires : Option Nat
deriving DecidableEq

/-- The persisted `Record` (source lines 79-84): value bytes, publisher
bytes, ttl in seconds (a `u32`). -/
structure Record where
  value : List Nat
  publisher : List Nat
  ttl : Nat
deriving DecidableEq

/-- The persisted `Entry` (source line 77): key bytes plus a `Record`. -/
structure Entry where
  key : RecordKey
  record : Record
deriving DecidableEq

/-- Result of a computation that can hit a Rust panic (`.expect`). -/
inductive PanicOr (α : Type) where
  | panics
  | ok (val : α)
deriving DecidableEq

/-- libp2p `kad::store::Error`: the store's error taxonomy. -/
inductive StoreError where
  | maxRecords
  | valueTooLarge
  | maxProvidedKeys
deriving DecidableEq

/-- An error of the external persistent database. -/
inductive DbError where
  | ioError
  | corrupted
deriving DecidableEq

/-- Modelled: libp2p `PeerId::to_bytes` — an injective multihash encoding
that is never the empty byte sequence. -/
def peerIdToBytes (p : PeerId) : List Nat := [1, p]

/-- Modelled: libp2p `PeerId::from_bytes` — the partial inverse of
`peerIdToBytes`; byte sequences outside its image are invalid. -/
def peerIdFromBytes : List Nat → Option PeerId
  | [1, p] => some p
  | _ => none

/-- `From (kad::Record) for Entry` (source lines 86-101): the ttl is
`record.expires.map (t - now).max(1s).as_secs  as u32` with 0 for `None`. -/
def recordToEntry (now : Nat) (r : KadRecord) : Entry :=
  let ttl :=
    match r.expires with
    | some t => (max (t - now) 1) % 4294967296
    | none => 0
  { key := r.key
    record :=
      { value := r.value
        publisher := (r.publisher.map peerIdToBytes).getD []
        ttl := ttl } }

/-- `From Entry for kad::Record` (source lines 103-116): a non-empty
publisher byte sequence is decoded with `.expect` (panics when invalid);
ttl 0 means no expiry, ttl > 0 becomes `now + ttl`. -/
def entryToRecord (now : Nat) (e : Entry) : PanicOr KadRecord :=
  let pub : PanicOr (Option PeerId) :=
    if e.record.publisher.isEmpty then .ok none
    else
      match peerIdFromBytes e.record.publisher with
      | some p => .ok (some p)
      | none => .panics
  match pub with
  | .panics => .panics
  | .ok publisher =>
      .ok
        { key := e.key
          value := e.record.value
          publisher := publisher
          expires := if 0 < e.record.ttl then some (now + e.record.ttl) else none }

/-- The store (source lines 17-33): local peer, configuration, the
persistent records (modelled from the spec as a key-indexed map, see
`Store.put`), the provider table and the local provided set.  The
provider table is an association list with distinct keys (a `HashMap` in
the source); the provided set is a duplicate-free list (a `HashSet`). -/
structure Store where
  local_key : PeerId
  config : StoreConfig
  records : RecordKey → Option Record
  providers : List (RecordKey × List ProviderRecord)
  provided : List ProviderRecord

/-- `Store::with_config` (source lines 65-73). -/
def Store.withConfig (local_id : PeerId) (config : StoreConfig) : Store :=
  { local_key := local_id
    config := config
    records := fun _ => none
    providers := []
    provided := [] }

/-- HashMap lookup on the provider table. -/
def getEntry : List (RecordKey × List ProviderRecord) → RecordKey → Option (List ProviderRecord)
  | [], _ => none
  | kl :: t, k => if kl.1 = k then some kl.2 else getEntry t k

/-- HashMap insert-or-replace on the provider table. -/
def setEntry : List (RecordKey × List ProviderRecord) → RecordKey → List ProviderRecord →
    List (RecordKey × List ProviderRecord)
  | [], k, v => [(k, v)]
  | kl :: t, k, v => if kl.1 = k then (k, v) :: t else kl :: setEntry t k v

/-- HashMap entry removal on the provider table. -/
def removeEntry : List (RecordKey × List ProviderRecord) → RecordKey →
    List (RecordKey × List ProviderRecord)
  | [], _ => []
  | kl :: t, k => if kl.1 = k then t else kl :: removeEntry t k

/-- HashSet insert: a fully equal element is already present, so the set
is unchanged; otherwise the element is added. -/
def insertSet (l : List ProviderRecord) (r : ProviderRecord) : List ProviderRecord :=
  if r ∈ l then l else r :: l

/-- HashSet remove: drops the (at most one) equal element. -/
def eraseSet : List ProviderRecord → ProviderRecord → List ProviderRecord
  | [], _ => []
  | x :: t, r => if x = r then t else x :: eraseSet t r

/-- `Iterator::position`: the index of the first element satisfying the
predicate. -/
def position (p : α → Bool) : List α → Option Nat
  | [] => none
  | a :: l => if p a then some 0 else (position p l).map (· + 1)

/-- `Vec::insert` at an index (the source only calls it in bounds). -/
def insIdx : Nat → α → List α → List α
  | _, a, [] => [a]
  | 0, a, l => a :: l
  | n + 1, a, b :: t => b :: insIdx n a t

/-- Body of `add_provider` once the per-key entry `providers` has been
obtained (source lines 191-222).  Mirrors the source: in-place update of
an existing provider; otherwise ordered insert before the first farther
provider, with eviction of the popped last element from the provided set,
or append when there is room, or silent drop. -/
def addProviderBody (d : Dist) (s : Store) (record : ProviderRecord)
    (providers : List ProviderRecord) : Store :=
  match position (fun p => decide (p.provider = record.provider)) providers with
  | some i =>
      { s with providers := setEntry s.providers record.key (providers.set i record) }
  | none =>
      let local_key := s.local_key
      let key := record.key
      match position (fun p => decide (d key record.provider < d key p.provider)) providers with
      | some i =>
          let provided :=
            if local_key = record.provider then insertSet s.provided record else s.provided
          let l := insIdx i record providers
          if s.config.max_providers_per_key < l.length then
            let provided :=
              match l.getLast? with
              | some p => eraseSet provided p
              | none => provided
            { s with providers := setEntry s.providers key l.dropLast, provided := provided }
          else
            { s with providers := setEntry s.providers key l, provided := provided }
      | none =>
          if providers.length < s.config.max_providers_per_key then
            let provided :=
              if local_key = record.provider then insertSet s.provided record else s.provided
            { s with
                providers := setEntry s.providers key (providers ++ [record])
                provided := provided }
          else
            { s with providers := setEntry s.providers key providers }

/-- `add_provider` (source lines 176-224): a vacant key fails with
`MaxProvidedKeys` when the table already holds `max_provided_keys` keys;
otherwise the key's entry (empty for a vacant key, as `or_insert_with`)
is updated by `addProviderBody`. -/
def addProvider (d : Dist) (s : Store) (record : ProviderRecord) : Except StoreError Store :=
  let num_keys := s.providers.length
  match getEntry s.providers record.key with
  | some providers => .ok (addProviderBody d s record providers)
  | none =>
      if s.config.max_provided_keys = num_keys then .error .maxProvidedKeys
      else .ok (addProviderBody d s record [])

/-- `providers` (source lines 226-230). -/
def providersOf (s : Store) (key : RecordKey) : List ProviderRecord :=
  (getEntry s.providers key).getD []

/-- `remove_provider` (source lines 236-247): remove the matching record
(also from the provided set); drop the key's entry when its list is
empty (the emptiness check runs whether or not a record was removed). -/
def removeProvider (s : Store) (key : RecordKey) (provider : PeerId) : Store :=
  match getEntry s.providers key with
  | none => s
  | some providers =>
      let res : List ProviderRecord × List ProviderRecord :=
        match position (fun p => decide (p.provider = provider)) providers with
        | some i =>
            match providers[i]? with
            | some p => (providers.eraseIdx i, eraseSet s.provided p)
            | none => (providers, s.provided)
        | none => (providers, s.provided)
      if res.1.isEmpty then
        { s with providers := removeEntry s.providers key, provided := res.2 }
      else
        { s with providers := setEntry s.providers key res.1, provided := res.2 }

/-- The error match arm of `get` (source lines 144-153): a database
result (or error) is turned into the returned option; a database error is
logged and becomes `None`, a found entry is decoded (`entry.into()` may
panic on an invalid publisher). -/
def getResult (res : Except DbError (Option Entry)) (now : Nat) : PanicOr (Option KadRecord) :=
  match res with
  | .ok record =>
      match record with
      | none => .ok none
      | some entry =>
          match entryToRecord now entry with
          | .panics => .panics
          | .ok r => .ok (some r)
  | .error _ => .ok none

/-- The result of `put` (source lines 155-165) given the database call's
outcome: the size check precedes the database write, and a database error
is mapped to `ValueTooLarge` (`map_err(|_| Error::ValueTooLarge)`). -/
def putResult (cfg : StoreConfig) (record : KadRecord) (now : Nat)
    (dbPut : Entry → Except DbError Unit) : Except StoreError Unit :=
  if cfg.max_value_bytes ≤ record.value.length then .error .valueTooLarge
  else
    match dbPut (recordToEntry now record) with
    | .ok _ => .ok ()
    | .error _ => .error .valueTooLarge

/-- `remove` (source lines 167-170): the database delete's outcome is
discarded (`let _ = ...`); the operation never reports an error. -/
def removeResult (_res : Except DbError Unit) : Unit := ()

/-- `get` against the store state.  Modelled from the spec: the external
persistent database (crate `data`, not part of the analysed sources) is a
typed key-value map that returns exactly the entry persisted at the key
(§6: typed lookup; absence is not an error). -/
def Store.get (s : Store) (now : Nat) (k : RecordKey) : PanicOr (Option KadRecord) :=
  getResult (.ok ((s.records k).map fun rec => { key := k, record := rec })) now

/-- `put` against the store state.  Modelled from the spec: the external
persistent database is a typed key-value map and `put` is an upsert (§6);
the size check and the encoding are the source's (lines 155-165). -/
def Store.put (s : Store) (now : Nat) (record : KadRecord) :
    Except StoreError Unit × Store :=
  if s.config.max_value_bytes ≤ record.value.length then (.error .valueTooLarge, s)
  else
    let e := recordToEntry now record
    (.ok (),
      { s with records := fun k => if k = e.key then some e.record else s.records k })

/-- `remove` against the store state (best-effort delete). -/
def Store.remove (s : Store) (k : RecordKey) : Store :=
  { s with records := fun k' => if k' = k then none else s.records k' }

/-- A mutating store operation. -/
inductive Op where
  | addProvider (record : ProviderRecord)
  | removeProvider (key : RecordKey) (provider : PeerId)
  | putRecord (now : Nat) (record : KadRecord)
  | removeRecord (key : RecordKey)

/-- One mutating operation against the store; a failed `add_provider`
leaves the store unchanged (the source returns before any mutation). -/
def step (d : Dist) (s : Store) : Op → Store
  | .addProvider record =>
      match addProvider d s record with
      | .ok s' => s'
      | .error _ => s
  | .removeProvider key provider => removeProvider s key provider
  | .putRecord now record => (Store.put s now record).2
  | .removeRecord key => Store.remove s key

/-- A finite sequence of store operations. -/
def run (d : Dist) (s : Store) (ops : List Op) : Store :=
  ops.foldl (step d) s

/-- Two instants are within one second of each other. -/
def near (a b : Nat) : Prop := a ≤ b + 1 ∧ b ≤ a + 1

instance (a b : Nat) : Decidable (near a b) :=
  inferInstanceAs (Decidable (_ ∧ _))

/-- The error of a result, if any. -/
def errOf : Except ε α → Option ε
  | .error e => some e
  | .ok _ => none

/-- Ordered insert before the first strictly farther element (a proof
device: `addProviderBody`'s find-position-then-insert equals this). -/
def ordIns (f : α → Nat) (a : α) : List α → List α
  | [] => [a]
  | b :: t => if f a < f b then a :: b :: t else b :: ordIns f a t

/-- The per-key list update performed by `addProviderBody` (a proof
device; `addProviderBody_providers` proves the correspondence). -/
def listStep (d : Dist) (maxP : Nat) (record : ProviderRecord)
    (l : List ProviderRecord) : List ProviderRecord :=
  match position (fun p => decide (p.provider = record.provider)) l with
  | some i => l.set i record
  | none =>
      match position (fun p => decide (d record.key record.provider < d record.key p.provider)) l with
      | some i =>
          let l' := insIdx i record l
          if maxP < l'.length then l'.dropLast else l'
      | none => if l.length < maxP then l ++ [record] else l

/-- The per-key list update performed by `removeProvider` (a proof
device; `removeProvider_providers_eq` proves the correspondence). -/
def removeStep (provider : PeerId) (l : List ProviderRecord) : List ProviderRecord :=
  match position (fun p => decide (p.provider = provider)) l with
  | some i =>
      match l[i]? with
      | some _ => l.eraseIdx i
      | none => l
  | none => l

/-- Well-formedness of one provider-table entry: all records carry the
entry's key, the list is sorted ascending by distance to that key, its
length is capped, it is non-empty whenever the cap is positive, and it is
empty when the cap is zero. -/
def EntryGood (d : Dist) (cfg : StoreConfig) (k : RecordKey)
    (l : List ProviderRecord) : Prop :=
  (∀ r ∈ l, r.key = k) ∧
  l.Pairwise (fun a b => d k a.provider ≤ d k b.provider) ∧
  l.length ≤ cfg.max_providers_per_key ∧
  (1 ≤ cfg.max_providers_per_key → l ≠ []) ∧
  (cfg.max_providers_per_key = 0 → l = [])

/-- Well-formedness of the provider table: distinct keys, every entry
well-formed. -/
def TableGood (d : Dist) (cfg : StoreConfig)
    (T : List (RecordKey × List ProviderRecord)) : Prop :=
  (T.map Prod.fst).Nodup ∧ ∀ e ∈ T, EntryGood d cfg e.1 e.2

/-- The per-key list holds exactly the (up to `maxP`) closest of the
records processed so far: sorted, duplicate-free, drawn from `processed`,
of saturated length, and with every processed record outside the list
strictly farther than every record in it. -/
def Closest (d : Dist) (k : RecordKey) (maxP : Nat)
    (processed l : List ProviderRecord) : Prop :=
  l.Pairwise (fun a b => d k a.provider ≤ d k b.provider) ∧
  l.Nodup ∧
  (∀ x ∈ l, x ∈ processed) ∧
  l.length = min maxP processed.length ∧
  (∀ x ∈ processed, x ∉ l → ∀ y ∈ l, d k y.provider < d k x.provider)

/-! ## Theorems -/

/-! ### Helper lemmas about `position`, `insIdx` and `ordIns` -/

theorem position_eq_none_iff {p : α → Bool} {l : List α} :
    position p l = none ↔ ∀ a ∈ l, p a = false := by
  induction l with
  | nil => simp [position]
  | cons a t ih =>
      by_cases hp : p a <;> simp [position, hp, ih]

theorem position_eq_some {p : α → Bool} {l : List α} {i : Nat}
    (h : position p l = some i) :
    ∃ hi : i < l.length, p (l.get ⟨i, hi⟩) = true := by
  induction l generalizing i with
  | nil => simp [position] at h
  | cons a t ih =>
      by_cases hp : p a
      · simp [position, hp] at h
        subst h
        exact ⟨Nat.succ_pos _, hp⟩
      · simp [position, hp] at h
        obtain ⟨j, hj, hij⟩ := h
        obtain ⟨hjl, hpj⟩ := ih hj
        subst hij
        exact ⟨Nat.succ_lt_succ hjl, hpj⟩

theorem length_insIdx (a : α) : ∀ (i : Nat) (l : List α),
    (insIdx i a l).length = l.length + 1
  | 0, [] => rfl
  | _ + 1, [] => rfl
  | 0, _ :: _ => rfl
  | n + 1, b :: t => by simp [insIdx, length_insIdx a n t]

theorem mem_insIdx {a x : α} : ∀ {i : Nat} {l : List α},
    x ∈ insIdx i a l → x = a ∨ x ∈ l := by
  intro i l
  induction l generalizing i with
  | nil => intro h; simp [insIdx] at h; exact Or.inl h
  | cons b t ih =>
      intro h
      match i with
      | 0 =>
          simp [insIdx] at h
          rcases h with h | h
          · exact Or.inl h
          · exact Or.inr (by simp [h])
      | n + 1 =>
          simp [insIdx] at h
          rcases h with h | h
          · exact Or.inr (by simp [h])
          · rcases ih h with h' | h'
            · exact Or.inl h'
            · exact Or.inr (by simp [h'])

theorem position_lt_some_insIdx (f : α → Nat) (a : α) : ∀ {l : List α} {i : Nat},
    position (fun b => decide (f a < f b)) l = some i → insIdx i a l = ordIns f a l := by
  intro l
  induction l with
  | nil => intro i h; simp [position] at h
  | cons b t ih =>
      intro i h
      by_cases hab : f a < f b
      · simp [position, hab] at h
        subst h
        simp [insIdx, ordIns, hab]
      · simp [position, hab] at h
        obtain ⟨j, hj, hij⟩ := h
        subst hij
        simp [insIdx, ordIns, hab, ih hj]

theorem position_lt_none_ordIns (f : α → Nat) (a : α) : ∀ {l : List α},
    position (fun b => decide (f a < f b)) l = none → ordIns f a l = l ++ [a] := by
  intro l
  induction l with
  | nil => intro _; rfl
  | cons b t ih =>
      intro h
      rw [position_eq_none_iff] at h
      have hb : ¬ f a < f b := by
        have := h b (List.mem_cons_self b t)
        simpa using this
      have ht : position (fun b => decide (f a < f b)) t = none := by
        rw [position_eq_none_iff]
        intro x hx
        exact h x (List.mem_cons_of_mem b hx)
      simp [ordIns, hb, ih ht]

theorem mem_ordIns (f : α → Nat) (a x : α) : ∀ {l : List α},
    x ∈ ordIns f a l ↔ x = a ∨ x ∈ l := by
  intro l
  induction l with
  | nil => simp [ordIns]
  | cons b t ih =>
      by_cases hab : f a < f b
      · simp [ordIns, hab]
      · simp [ordIns, hab, ih]
        tauto

theorem length_ordIns (f : α → Nat) (a : α) : ∀ (l : List α),
    (ordIns f a l).length = l.length + 1
  | [] => rfl
  | b :: t => by
      by_cases hab : f a < f b <;> simp [ordIns, hab, length_ordIns f a t]

theorem pairwise_ordIns (f : α → Nat) (a : α) : ∀ {l : List α},
    l.Pairwise (fun x y => f x ≤ f y) →
    (ordIns f a l).Pairwise (fun x y => f x ≤ f y) := by
  intro l
  induction l with
  | nil => intro _; simp [ordIns]
  | cons b t ih =>
      intro h
      rcases List.pairwise_cons.mp h with ⟨hb, ht⟩
      by_cases hab : f a < f b
      · rw [ordIns, if_pos hab]
        refine List.pairwise_cons.mpr ⟨?_, h⟩
        intro x hx
        rcases List.mem_cons.mp hx with hx | hx
        · exact hx ▸ Nat.le_of_lt hab
        · exact Nat.le_trans (Nat.le_of_lt hab) (hb x hx)
      · rw [ordIns, if_neg hab]
        refine List.pairwise_cons.mpr ⟨?_, ih ht⟩
        intro x hx
        rcases (mem_ordIns f a x).mp hx with hx | hx
        · exact hx ▸ Nat.le_of_not_lt hab
        · exact hb x hx

theorem nodup_ordIns (f : α → Nat) (a : α) {l : List α}
    (ha : a ∉ l) (hl : l.Nodup) : (ordIns f a l).Nodup := by
  induction l with
  | nil => simp [ordIns]
  | cons b t ih =>
      rcases List.nodup_cons.mp hl with ⟨hbt, ht⟩
      have hab : a ≠ b := fun h => ha (h ▸ List.mem_cons_self b t)
      have hat : a ∉ t := fun h => ha (List.mem_cons_of_mem b h)
      by_cases hlt : f a < f b
      · rw [ordIns, if_pos hlt]
        exact List.nodup_cons.mpr ⟨by simp [hab, hat], hl⟩
      · rw [ordIns, if_neg hlt]
        refine List.nodup_cons.mpr ⟨?_, ih hat ht⟩
        intro hmem
        rcases (mem_ordIns f a b).mp hmem with h | h
        · exact hab h.symm
        · exact hbt h

theorem mem_set_cases {l : List α} {a x : α} : ∀ {i : Nat},
    x ∈ l.set i a → x = a ∨ x ∈ l := by
  intro i h
  rcases List.mem_or_eq_of_mem_set h with h' | h'
  · exact Or.inr h'
  · exact Or.inl h'

theorem pairwise_le_set (f : α → Nat) : ∀ {l : List α} {i : Nat} {a : α}
    (_ : l.Pairwise (fun x y => f x ≤ f y)) (hi : i < l.length)
    (_ : f (l.get ⟨i, hi⟩) = f a),
    (l.set i a).Pairwise (fun x y => f x ≤ f y) := by
  intro l
  induction l with
  | nil => intro i a _ hi; simp at hi
  | cons b t ih =>
      intro i a hl hi hf
      rcases List.pairwise_cons.mp hl with ⟨hb, ht⟩
      match i with
      | 0 =>
          simp only [List.set]
          refine List.pairwise_cons.mpr ⟨?_, ht⟩
          intro x hx
          have : f b ≤ f x := hb x hx
          simpa [← hf] using this
      | n + 1 =>
          simp only [List.set]
          refine List.pairwise_cons.mpr ⟨?_, ih ht (Nat.lt_of_succ_lt_succ hi) hf⟩
          intro x hx
          rcases mem_set_cases hx with hx | hx
          · subst hx
            have hmem : t.get ⟨n, Nat.lt_of_succ_lt_succ hi⟩ ∈ t := t.get_mem _ _
            have := hb _ hmem
            simpa [← hf] using this
          · exact hb x hx

theorem pairwise_last (f : α → Nat) {l : List α} (hne : l ≠ [])
    (hl : l.Pairwise (fun x y => f x ≤ f y)) :
    ∀ x ∈ l.dropLast, f x ≤ f (l.getLast hne) := by
  intro x hx
  have hsplit : l.dropLast ++ [l.getLast hne] = l := List.dropLast_append_getLast hne
  rw [← hsplit] at hl
  rcases List.pairwise_append.mp hl with ⟨_, _, hcross⟩
  exact hcross x hx _ (List.mem_singleton_self _)

/-! ### Helper lemmas about the provider table representation -/

theorem getEntry_mem : ∀ {T : List (RecordKey × List ProviderRecord)} {k l},
    getEntry T k = some l → (k, l) ∈ T := by
  intro T
  induction T with
  | nil => intro k l h; simp [getEntry] at h
  | cons kl t ih =>
      intro k l h
      by_cases hk : kl.1 = k
      · rw [getEntry, if_pos hk] at h
        have : l = kl.2 := by injection h with h'; exact h'.symm
        subst this
        subst hk
        exact List.mem_cons_self _ _
      · rw [getEntry, if_neg hk] at h
        exact List.mem_cons_of_mem _ (ih h)

theorem getEntry_eq_none_iff : ∀ {T : List (RecordKey × List ProviderRecord)} {k},
    getEntry T k = none ↔ k ∉ T.map Prod.fst := by
  intro T
  induction T with
  | nil => intro k; simp [getEntry]
  | cons kl t ih =>
      intro k
      by_cases hk : kl.1 = k
      · constructor
        · intro h
          rw [getEntry, if_pos hk] at h
          cases h
        · intro h
          exfalso
          apply h
          rw [List.map_cons, hk]
          exact List.mem_cons_self _ _
      · rw [getEntry, if_neg hk, ih]
        simp only [List.map_cons, List.mem_cons, not_or]
        constructor
        · intro h
          exact ⟨fun he => hk he.symm, h⟩
        · intro h
          exact h.2

theorem mem_setEntry : ∀ {T : List (RecordKey × List ProviderRecord)} {k v e},
    e ∈ setEntry T k v → e = (k, v) ∨ e ∈ T := by
  intro T
  induction T with
  | nil => intro k v e h; simp [setEntry] at h; exact Or.inl h
  | cons kl t ih =>
      intro k v e h
      by_cases hk : kl.1 = k
      · rw [setEntry, if_pos hk] at h
        rcases List.mem_cons.mp h with h | h
        · exact Or.inl h
        · exact Or.inr (List.mem_cons_of_mem _ h)
      · rw [setEntry, if_neg hk] at h
        rcases List.mem_cons.mp h with h | h
        · exact Or.inr (h ▸ List.mem_cons_self _ _)
        · rcases ih h with h' | h'
          · exact Or.inl h'
          · exact Or.inr (List.mem_cons_of_mem _ h')

theorem keys_setEntry : ∀ (T : List (RecordKey × List ProviderRecord)) (k v),
    (setEntry T k v).map Prod.fst =
      if k ∈ T.map Prod.fst then T.map Prod.fst else T.map Prod.fst ++ [k] := by
  intro T
  induction T with
  | nil => intro k v; simp [setEntry]
  | cons kl t ih =>
      intro k v
      by_cases hk : kl.1 = k
      · simp [setEntry, hk]
      · have hne : ¬ k = kl.1 := fun h => hk h.symm
        by_cases hmem : k ∈ t.map Prod.fst <;>
          simp [setEntry, hk, hne, hmem, ih]

theorem nodup_keys_setEntry {T : List (RecordKey × List ProviderRecord)} {k v}
    (h : (T.map Prod.fst).Nodup) : ((setEntry T k v).map Prod.fst).Nodup := by
  rw [keys_setEntry]
  by_cases hmem : k ∈ T.map Prod.fst
  · simpa [hmem] using h
  · simp only [hmem, if_false]
    rw [List.nodup_append]
    refine ⟨h, List.nodup_singleton k, fun a ha hb => ?_⟩
    rw [List.mem_singleton.mp hb] at ha
    exact hmem ha

theorem getEntry_setEntry_self : ∀ (T : List (RecordKey × List ProviderRecord)) (k v),
    getEntry (setEntry T k v) k = some v := by
  intro T
  induction T with
  | nil => intro k v; simp [setEntry, getEntry]
  | cons kl t ih =>
      intro k v
      by_cases hk : kl.1 = k
      · simp [setEntry, hk, getEntry]
      · simp [setEntry, hk, getEntry, ih]

theorem getEntry_setEntry_ne {k k' : RecordKey} {v : List ProviderRecord} (h : k' ≠ k) :
    ∀ (T : List (RecordKey × List ProviderRecord)),
    getEntry (setEntry T k v) k' = getEntry T k' := by
  have hkk : ¬ k = k' := fun hh => h hh.symm
  intro T
  induction T with
  | nil =>
      show (if k = k' then some v else getEntry [] k') = getEntry [] k'
      rw [if_neg hkk]
  | cons kl t ih =>
      by_cases hk : kl.1 = k
      · have h1 : ¬ kl.1 = k' := by rw [hk]; exact hkk
        simp [setEntry, getEntry, hk, hkk, h1]
      · by_cases hk' : kl.1 = k' <;> simp [setEntry, getEntry, hk, hk', ih, h]

theorem length_setEntry_of_vacant : ∀ {T : List (RecordKey × List ProviderRecord)} {k} (v),
    getEntry T k = none → (setEntry T k v).length = T.length + 1 := by
  intro T
  induction T with
  | nil => intro k v _; rfl
  | cons kl t ih =>
      intro k v h
      by_cases hk : kl.1 = k
      · rw [getEntry, if_pos hk] at h
        cases h
      · rw [getEntry, if_neg hk] at h
        simp [setEntry, hk, ih v h]

theorem mem_removeEntry : ∀ {T : List (RecordKey × List ProviderRecord)} {k e},
    e ∈ removeEntry T k → e ∈ T := by
  intro T
  induction T with
  | nil => intro k e h; simp [removeEntry] at h
  | cons kl t ih =>
      intro k e h
      by_cases hk : kl.1 = k
      · rw [removeEntry, if_pos hk] at h
        exact List.mem_cons_of_mem _ h
      · rw [removeEntry, if_neg hk] at h
        rcases List.mem_cons.mp h with h | h
        · exact h ▸ List.mem_cons_self _ _
        · exact List.mem_cons_of_mem _ (ih h)

theorem keys_removeEntry_sublist : ∀ (T : List (RecordKey × List ProviderRecord)) (k),
    List.Sublist ((removeEntry T k).map Prod.fst) (T.map Prod.fst) := by
  intro T
  induction T with
  | nil => intro k; simp [removeEntry]
  | cons kl t ih =>
      intro k
      by_cases hk : kl.1 = k
      · rw [removeEntry, if_pos hk, List.map_cons]
        exact List.sublist_cons_self _ _
      · rw [removeEntry, if_neg hk, List.map_cons, List.map_cons]
        exact List.Sublist.cons₂ _ (ih k)

/-! ### Preservation of entry well-formedness by the list update -/

theorem listStep_eq_set {d : Dist} {maxP : Nat} {record : ProviderRecord}
    {l : List ProviderRecord} {i : Nat}
    (h : position (fun p => decide (p.provider = record.provider)) l = some i) :
    listStep d maxP record l = l.set i record := by
  unfold listStep
  rw [h]

theorem listStep_eq_insert {d : Dist} {maxP : Nat} {record : ProviderRecord}
    {l : List ProviderRecord} {i : Nat}
    (h1 : position (fun p => decide (p.provider = record.provider)) l = none)
    (h2 : position
      (fun p => decide (d record.key record.provider < d record.key p.provider)) l = some i) :
    listStep d maxP record l =
      if maxP < (insIdx i record l).length then (insIdx i record l).dropLast
      else insIdx i record l := by
  unfold listStep
  rw [h1, h2]

theorem listStep_eq_tail {d : Dist} {maxP : Nat} {record : ProviderRecord}
    {l : List ProviderRecord}
    (h1 : position (fun p => decide (p.provider = record.provider)) l = none)
    (h2 : position
      (fun p => decide (d record.key record.provider < d record.key p.provider)) l = none) :
    listStep d maxP record l = if l.length < maxP then l ++ [record] else l := by
  unfold listStep
  rw [h1, h2]

theorem listStep_keys {d maxP} {record : ProviderRecord} {l : List ProviderRecord}
    (hkeys : ∀ r ∈ l, r.key = record.key) :
    ∀ r ∈ listStep d maxP record l, r.key = record.key := by
  intro r hr
  rcases hpos1 : position (fun p => decide (p.provider = record.provider)) l with _ | i
  · rcases hpos2 : position
        (fun p => decide (d record.key record.provider < d record.key p.provider)) l
      with _ | i
    · rw [listStep_eq_tail hpos1 hpos2] at hr
      by_cases hroom : l.length < maxP
      · rw [if_pos hroom] at hr
        rcases List.mem_append.mp hr with h | h
        · exact hkeys r h
        · simp at h; subst h; rfl
      · rw [if_neg hroom] at hr
        exact hkeys r hr
    · rw [listStep_eq_insert hpos1 hpos2] at hr
      by_cases hover : maxP < (insIdx i record l).length
      · rw [if_pos hover] at hr
        have := List.dropLast_sublist (insIdx i record l) |>.mem hr
        rcases mem_insIdx this with h | h
        · subst h; rfl
        · exact hkeys r h
      · rw [if_neg hover] at hr
        rcases mem_insIdx hr with h | h
        · subst h; rfl
        · exact hkeys r h
  · rw [listStep_eq_set hpos1] at hr
    rcases mem_set_cases hr with h | h
    · subst h; rfl
    · exact hkeys r h

theorem listStep_sorted {d maxP} {record : ProviderRecord} {l : List ProviderRecord}
    (hsort : l.Pairwise
      (fun a b => d record.key a.provider ≤ d record.key b.provider)) :
    (listStep d maxP record l).Pairwise
      (fun a b => d record.key a.provider ≤ d record.key b.provider) := by
  have hsort' : l.Pairwise
      (fun a b => (fun r : ProviderRecord => d record.key r.provider) a ≤
        (fun r : ProviderRecord => d record.key r.provider) b) := hsort
  rcases hpos1 : position (fun p => decide (p.provider = record.provider)) l with _ | i
  · rcases hpos2 : position
        (fun p => decide (d record.key record.provider < d record.key p.provider)) l
      with _ | i
    · rw [listStep_eq_tail hpos1 hpos2]
      by_cases hroom : l.length < maxP
      · rw [if_pos hroom]
        have hins := position_lt_none_ordIns
          (fun r : ProviderRecord => d record.key r.provider) record hpos2
        rw [← hins]
        exact pairwise_ordIns _ record hsort'
      · rw [if_neg hroom]
        exact hsort
    · rw [listStep_eq_insert hpos1 hpos2]
      have hins := position_lt_some_insIdx
        (fun r : ProviderRecord => d record.key r.provider) record hpos2
      have hord := pairwise_ordIns
        (fun r : ProviderRecord => d record.key r.provider) record hsort'
      rw [← hins] at hord
      by_cases hover : maxP < (insIdx i record l).length
      · rw [if_pos hover]
        exact List.Pairwise.sublist (List.dropLast_sublist _) hord
      · rw [if_neg hover]
        exact hord
  · rw [listStep_eq_set hpos1]
    obtain ⟨hi, hp⟩ := position_eq_some hpos1
    have hpr : (l.get ⟨i, hi⟩).provider = record.provider := of_decide_eq_true hp
    have heq : (fun r : ProviderRecord => d record.key r.provider) (l.get ⟨i, hi⟩) =
        (fun r : ProviderRecord => d record.key r.provider) record := by
      simp only [hpr]
    exact pairwise_le_set _ hsort' hi heq

theorem listStep_length {d maxP} {record : ProviderRecord} {l : List ProviderRecord}
    (hlen : l.length ≤ maxP) : (listStep d maxP record l).length ≤ maxP := by
  rcases hpos1 : position (fun p => decide (p.provider = record.provider)) l with _ | i
  · rcases hpos2 : position
        (fun p => decide (d record.key record.provider < d record.key p.provider)) l
      with _ | i
    · rw [listStep_eq_tail hpos1 hpos2]
      by_cases hroom : l.length < maxP
      · rw [if_pos hroom]
        simpa using hroom
      · rw [if_neg hroom]
        exact hlen
    · rw [listStep_eq_insert hpos1 hpos2]
      have hilen := length_insIdx record i l
      by_cases hover : maxP < (insIdx i record l).length
      · rw [if_pos hover, List.length_dropLast]
        omega
      · rw [if_neg hover]
        omega
  · rw [listStep_eq_set hpos1]
    simpa using hlen

theorem listStep_ne_nil {d maxP} {record : ProviderRecord} {l : List ProviderRecord}
    (hmax : 1 ≤ maxP) : listStep d maxP record l ≠ [] := by
  rcases hpos1 : position (fun p => decide (p.provider = record.provider)) l with _ | i
  · rcases hpos2 : position
        (fun p => decide (d record.key record.provider < d record.key p.provider)) l
      with _ | i
    · rw [listStep_eq_tail hpos1 hpos2]
      by_cases hroom : l.length < maxP
      · rw [if_pos hroom]
        simp
      · rw [if_neg hroom]
        intro h
        subst h
        exact hroom (by simpa using hmax)
    · rw [listStep_eq_insert hpos1 hpos2]
      have hilen := length_insIdx record i l
      by_cases hover : maxP < (insIdx i record l).length
      · rw [if_pos hover]
        intro h
        have hlen0 : ((insIdx i record l).dropLast).length = 0 := by rw [h]; rfl
        rw [List.length_dropLast, hilen] at hlen0
        omega
      · rw [if_neg hover]
        intro h
        have hlen0 : (insIdx i record l).length = 0 := by rw [h]; rfl
        rw [hilen] at hlen0
        omega
  · rw [listStep_eq_set hpos1]
    obtain ⟨hi, _⟩ := position_eq_some hpos1
    intro h
    have hlen0 : (l.set i record).length = 0 := by rw [h]; rfl
    rw [List.length_set] at hlen0
    omega

theorem listStep_nil_of_zero {d} {record : ProviderRecord} :
    listStep d 0 record [] = [] := by
  rfl

/-! ### From `addProviderBody` to `listStep` -/

theorem addProviderBody_providers (d : Dist) (s : Store) (record : ProviderRecord)
    (providers : List ProviderRecord) :
    (addProviderBody d s record providers).providers =
      setEntry s.providers record.key
        (listStep d s.config.max_providers_per_key record providers) ∧
    (addProviderBody d s record providers).config = s.config ∧
    (addProviderBody d s record providers).local_key = s.local_key ∧
    (addProviderBody d s record providers).records = s.records := by
  rcases hpos1 : position (fun p => decide (p.provider = record.provider)) providers with _ | i
  · rcases hpos2 : position
        (fun p => decide (d record.key record.provider < d record.key p.provider)) providers
      with _ | i
    · rw [listStep_eq_tail hpos1 hpos2]
      unfold addProviderBody
      simp only [hpos1, hpos2]
      by_cases hroom : providers.length < s.config.max_providers_per_key
      · simp only [if_pos hroom]
        refine ⟨?_, ?_, ?_, ?_⟩ <;> trivial
      · simp only [if_neg hroom]
        refine ⟨?_, ?_, ?_, ?_⟩ <;> trivial
    · rw [listStep_eq_insert hpos1 hpos2]
      unfold addProviderBody
      simp only [hpos1, hpos2]
      by_cases hover :
        s.config.max_providers_per_key < (insIdx i record providers).length
      · simp only [if_pos hover]
        refine ⟨?_, ?_, ?_, ?_⟩ <;> trivial
      · simp only [if_neg hover]
        refine ⟨?_, ?_, ?_, ?_⟩ <;> trivial
  · rw [listStep_eq_set hpos1]
    unfold addProviderBody
    simp only [hpos1]
    refine ⟨?_, ?_, ?_, ?_⟩ <;> trivial

theorem addProvider_cases (d : Dist) (s : Store) (record : ProviderRecord) :
    (∃ l, getEntry s.providers record.key = some l ∧
      addProvider d s record = .ok (addProviderBody d s record l)) ∨
    (getEntry s.providers record.key = none ∧
      s.config.max_provided_keys = s.providers.length ∧
      addProvider d s record = .error .maxProvidedKeys) ∨
    (getEntry s.providers record.key = none ∧
      s.config.max_provided_keys ≠ s.providers.length ∧
      addProvider d s record = .ok (addProviderBody d s record [])) := by
  unfold addProvider
  rcases h : getEntry s.providers record.key with _ | l
  · by_cases hcap : s.config.max_provided_keys = s.providers.length
    · exact Or.inr (Or.inl ⟨rfl, hcap, by simp [hcap]⟩)
    · exact Or.inr (Or.inr ⟨rfl, hcap, by simp [hcap]⟩)
  · exact Or.inl ⟨l, rfl, rfl⟩

/-! ### Invariant preservation across store operations -/

theorem listStep_eq_nil_zero {d : Dist} {maxP : Nat} {record : ProviderRecord}
    {l : List ProviderRecord} (h0 : maxP = 0) (hl : l = []) :
    listStep d maxP record l = [] := by
  subst h0
  subst hl
  rfl

theorem entryGood_listStep {d : Dist} {cfg : StoreConfig} {record : ProviderRecord}
    {l : List ProviderRecord}
    (hkeys : ∀ r ∈ l, r.key = record.key)
    (hsort : l.Pairwise (fun a b => d record.key a.provider ≤ d record.key b.provider))
    (hlen : l.length ≤ cfg.max_providers_per_key)
    (hnil : cfg.max_providers_per_key = 0 → l = []) :
    EntryGood d cfg record.key (listStep d cfg.max_providers_per_key record l) :=
  ⟨listStep_keys hkeys, listStep_sorted hsort, listStep_length hlen,
   fun hmax => listStep_ne_nil hmax,
   fun h0 => listStep_eq_nil_zero h0 (hnil h0)⟩

theorem tableGood_setEntry {d : Dist} {cfg : StoreConfig}
    {T : List (RecordKey × List ProviderRecord)} {k : RecordKey}
    {v : List ProviderRecord} (hT : TableGood d cfg T)
    (hv : EntryGood d cfg k v) : TableGood d cfg (setEntry T k v) := by
  refine ⟨nodup_keys_setEntry hT.1, fun e he => ?_⟩
  rcases mem_setEntry he with he | he
  · subst he
    exact hv
  · exact hT.2 e he

theorem removeStep_sublist (provider : PeerId) (l : List ProviderRecord) :
    List.Sublist (removeStep provider l) l := by
  unfold removeStep
  cases hpos : position (fun p => decide (p.provider = provider)) l with
  | none => exact List.Sublist.refl l
  | some i =>
      dsimp only
      cases hgi : l[i]? with
      | none => exact List.Sublist.refl l
      | some p => exact List.eraseIdx_sublist l i

theorem removeProvider_providers_eq (s : Store) (k : RecordKey) (provider : PeerId) :
    (removeProvider s k provider).providers =
      match getEntry s.providers k with
      | none => s.providers
      | some l =>
          if (removeStep provider l).isEmpty then removeEntry s.providers k
          else setEntry s.providers k (removeStep provider l) := by
  unfold removeProvider removeStep
  cases hget : getEntry s.providers k with
  | none => rfl
  | some l =>
      dsimp only
      cases hpos : position (fun p => decide (p.provider = provider)) l with
      | none =>
          dsimp only
          split <;> rfl
      | some i =>
          dsimp only
          cases hgi : l[i]? with
          | none =>
              dsimp only
              split <;> rfl
          | some p =>
              dsimp only
              split <;> rfl

theorem removeProvider_fields (s : Store) (k : RecordKey) (provider : PeerId) :
    (removeProvider s k provider).config = s.config ∧
    (removeProvider s k provider).local_key = s.local_key ∧
    (removeProvider s k provider).records = s.records := by
  unfold removeProvider
  cases hget : getEntry s.providers k with
  | none => exact ⟨rfl, rfl, rfl⟩
  | some l =>
      dsimp only
      refine ⟨?_, ?_, ?_⟩ <;> (split <;> rfl)

theorem put_snd_fields (s : Store) (now : Nat) (record : KadRecord) :
    (Store.put s now record).2.config = s.config ∧
    (Store.put s now record).2.providers = s.providers := by
  unfold Store.put
  split <;> exact ⟨rfl, rfl⟩

theorem step_config (d : Dist) (s : Store) (op : Op) :
    (step d s op).config = s.config := by
  cases op with
  | addProvider record =>
      rcases addProvider_cases d s record with ⟨l, _, heq⟩ | ⟨_, _, heq⟩ | ⟨_, _, heq⟩ <;>
        simp only [step, heq]
      · exact (addProviderBody_providers d s record l).2.1
      · exact (addProviderBody_providers d s record []).2.1
  | removeProvider k provider => exact (removeProvider_fields s k provider).1
  | putRecord now record => exact (put_snd_fields s now record).1
  | removeRecord k => rfl

theorem tableGood_step (d : Dist) {cfg : StoreConfig} {s : Store}
    (hcfg : s.config = cfg) (h : TableGood d cfg s.providers) (op : Op) :
    TableGood d cfg (step d s op).providers := by
  cases op with
  | addProvider record =>
      rcases addProvider_cases d s record with ⟨l, hget, heq⟩ | ⟨_, _, heq⟩ | ⟨hget, _, heq⟩
      · simp only [step, heq]
        rw [(addProviderBody_providers d s record l).1, hcfg]
        have hE : EntryGood d cfg record.key l := h.2 _ (getEntry_mem hget)
        exact tableGood_setEntry h
          (entryGood_listStep hE.1 hE.2.1 (hcfg ▸ hE.2.2.1) (fun h0 => hE.2.2.2.2 (hcfg ▸ h0)))
      · simp only [step, heq]
        exact h
      · simp only [step, heq]
        rw [(addProviderBody_providers d s record []).1, hcfg]
        exact tableGood_setEntry h
          (entryGood_listStep (fun r hr => absurd hr (List.not_mem_nil r))
            List.Pairwise.nil (Nat.zero_le _) (fun _ => rfl))
  | removeProvider k provider =>
      rw [show (step d s (Op.removeProvider k provider)) = removeProvider s k provider from rfl,
        removeProvider_providers_eq]
      cases hget : getEntry s.providers k with
      | none => exact h
      | some l =>
          have hE : EntryGood d cfg k l := h.2 _ (getEntry_mem hget)
          have hsub := removeStep_sublist provider l
          by_cases hemp : (removeStep provider l).isEmpty
          · simp only [hemp, if_true]
            exact ⟨List.Nodup.sublist (keys_removeEntry_sublist s.providers k) h.1,
              fun e he => h.2 e (mem_removeEntry he)⟩
          · simp only [hemp, if_false]
            refine tableGood_setEntry h ⟨?_, ?_, ?_, ?_, ?_⟩
            · exact fun r hr => hE.1 r (hsub.mem hr)
            · exact List.Pairwise.sublist hsub hE.2.1
            · exact Nat.le_trans hsub.length_le hE.2.2.1
            · intro _ hnil
              rw [hnil] at hemp
              exact hemp rfl
            · intro h0
              have : l = [] := hE.2.2.2.2 h0
              subst this
              exact List.sublist_nil.mp hsub
  | putRecord now record =>
      rw [show (step d s (Op.putRecord now record)) = (Store.put s now record).2 from rfl,
        (put_snd_fields s now record).2]
      exact h
  | removeRecord k => exact h

theorem tableGood_run (d : Dist) {cfg : StoreConfig} : ∀ (ops : List Op) (s : Store),
    s.config = cfg → TableGood d cfg s.providers →
    TableGood d cfg (run d s ops).providers := by
  intro ops
  induction ops with
  | nil => intro s _ h; exact h
  | cons op t ih =>
      intro s hcfg h
      exact ih (step d s op) ((step_config d s op).trans hcfg) (tableGood_step d hcfg h op)

theorem tableGood_init (d : Dist) (lk : PeerId) (cfg : StoreConfig) :
    TableGood d cfg (Store.withConfig lk cfg).providers :=
  ⟨List.nodup_nil, fun e he => absurd he (List.not_mem_nil e)⟩

/-! ### The k-closest invariant behind eviction (C4) -/

theorem closest_step {d : Dist} {k : RecordKey} {maxP : Nat}
    {processed l : List ProviderRecord} {record : ProviderRecord}
    (hkey : record.key = k)
    (hC : Closest d k maxP processed l)
    (hfp : ∀ x ∈ processed, x.provider ≠ record.provider)
    (hfd : ∀ x ∈ processed, d k x.provider ≠ d k record.provider)
    (hinj : ∀ x ∈ processed, ∀ y ∈ processed,
      d k x.provider = d k y.provider → x = y) :
    Closest d k maxP (processed ++ [record]) (listStep d maxP record l) := by
  subst hkey
  obtain ⟨hsort, hnodup, hmem, hlen, hexcl⟩ := hC
  have hrecl : record ∉ l := fun h => hfp record (hmem record h) rfl
  have hpos1 : position (fun p => decide (p.provider = record.provider)) l = none := by
    rw [position_eq_none_iff]
    intro a ha
    simp only [decide_eq_false_iff_not]
    exact hfp a (hmem a ha)
  have hinj' : ∀ x ∈ processed ++ [record], ∀ y ∈ processed ++ [record],
      d record.key x.provider = d record.key y.provider → x = y := by
    intro x hx y hy hxy
    rcases List.mem_append.mp hx with hx | hx <;>
      rcases List.mem_append.mp hy with hy | hy
    · exact hinj x hx y hy hxy
    · rw [List.mem_singleton.mp hy] at hxy
      exact absurd hxy (hfd x hx)
    · rw [List.mem_singleton.mp hx] at hxy
      exact absurd hxy.symm (hfd y hy)
    · rw [List.mem_singleton.mp hx, List.mem_singleton.mp hy]
  cases hpos2 : position
      (fun p => decide (d record.key record.provider < d record.key p.provider)) l with
  | none =>
      rw [listStep_eq_tail hpos1 hpos2]
      have hall : ∀ y ∈ l, d record.key y.provider < d record.key record.provider := by
        intro y hy
        have h1 : ¬ d record.key record.provider < d record.key y.provider := by
          have := position_eq_none_iff.mp hpos2 y hy
          simpa using this
        have h2 : d record.key y.provider ≠ d record.key record.provider :=
          hfd y (hmem y hy)
        omega
      by_cases hroom : l.length < maxP
      · rw [if_pos hroom]
        have hlenp : l.length = processed.length := by omega
        refine ⟨?_, ?_, ?_, ?_, ?_⟩
        · have := pairwise_ordIns (fun r : ProviderRecord => d record.key r.provider)
            record hsort
          rwa [position_lt_none_ordIns _ record hpos2] at this
        · rw [List.nodup_append]
          refine ⟨hnodup, List.nodup_singleton record, fun a ha hb => ?_⟩
          rw [List.mem_singleton.mp hb] at ha
          exact hrecl ha
        · intro x hx
          rcases List.mem_append.mp hx with hx | hx
          · exact List.mem_append.mpr (Or.inl (hmem x hx))
          · exact List.mem_append.mpr (Or.inr hx)
        · simp only [List.length_append, List.length_singleton]
          omega
        · intro x hx hnx
          exfalso
          rcases List.mem_append.mp hx with hx | hx
          · have hxl : x ∉ l := fun h => hnx (List.mem_append.mpr (Or.inl h))
            have hsub : List.Subperm l processed := List.Nodup.subperm hnodup hmem
            have hperm := hsub.perm_of_length_le (by omega)
            exact hxl (hperm.mem_iff.mpr hx)
          · exact hnx (List.mem_append.mpr (Or.inr hx))
      · rw [if_neg hroom]
        refine ⟨hsort, hnodup,
          fun x hx => List.mem_append.mpr (Or.inl (hmem x hx)), ?_, ?_⟩
        · simp only [List.length_append, List.length_singleton]
          omega
        · intro x hx hnx
          rcases List.mem_append.mp hx with hx | hx
          · exact hexcl x hx hnx
          · intro y hy
            rw [List.mem_singleton.mp hx]
            exact hall y hy
  | some i =>
      rw [listStep_eq_insert hpos1 hpos2]
      have hins := position_lt_some_insIdx
        (fun r : ProviderRecord => d record.key r.provider) record hpos2
      rw [hins]
      set L := ordIns (fun r : ProviderRecord => d record.key r.provider) record l with hL
      have hLsort : L.Pairwise
          (fun a b => d record.key a.provider ≤ d record.key b.provider) :=
        pairwise_ordIns _ record hsort
      have hLnodup : L.Nodup := nodup_ordIns _ record hrecl hnodup
      have hLlen : L.length = l.length + 1 := length_ordIns _ record l
      have hLmem : ∀ x, x ∈ L ↔ x = record ∨ x ∈ l := fun x => mem_ordIns _ record x
      have hLsub : ∀ x ∈ L, x ∈ processed ++ [record] := by
        intro x hx
        rcases (hLmem x).mp hx with hx | hx
        · exact List.mem_append.mpr (Or.inr (by rw [hx]; exact List.mem_singleton_self _))
        · exact List.mem_append.mpr (Or.inl (hmem x hx))
      obtain ⟨hi2, hp2⟩ := position_eq_some hpos2
      by_cases hover : maxP < L.length
      · rw [if_pos hover]
        have hlmax : l.length = maxP := by omega
        have hLne : L ≠ [] := by
          intro h
          rw [h] at hLlen
          simp at hLlen
        have hsplit : L.dropLast ++ [L.getLast hLne] = L :=
          List.dropLast_append_getLast hLne
        have hmL : L.getLast hLne ∈ L := List.getLast_mem hLne
        have hmax_m : ∀ y ∈ L.dropLast,
            d record.key y.provider ≤ d record.key (L.getLast hLne).provider :=
          pairwise_last _ hLne hLsort
        have hmnotin : L.getLast hLne ∉ L.dropLast := by
          have hnd := hLnodup
          rw [← hsplit, List.nodup_append] at hnd
          intro hmem'
          exact hnd.2.2 hmem' (List.mem_singleton_self _)
        have hstrict : ∀ y ∈ L.dropLast,
            d record.key y.provider < d record.key (L.getLast hLne).provider := by
          intro y hy
          have hyL : y ∈ L := (List.dropLast_sublist L).mem hy
          have hle := hmax_m y hy
          rcases Nat.lt_or_ge (d record.key y.provider)
            (d record.key (L.getLast hLne).provider) with h | h
          · exact h
          · have heq : d record.key y.provider =
                d record.key (L.getLast hLne).provider := by omega
            have hym : y = L.getLast hLne :=
              hinj' y (hLsub y hyL) _ (hLsub _ hmL) heq
            exact absurd (hym ▸ hy) hmnotin
        have hinL_or : ∀ x, x ∈ L → x ∉ L.dropLast → x = L.getLast hLne := by
          intro x hxL hnx
          have := hxL
          rw [← hsplit] at this
          rcases List.mem_append.mp this with h | h
          · exact absurd h hnx
          · exact List.mem_singleton.mp h
        refine ⟨List.Pairwise.sublist (List.dropLast_sublist L) hLsort,
                List.Nodup.sublist (List.dropLast_sublist L) hLnodup,
                fun x hx => hLsub x ((List.dropLast_sublist L).mem hx), ?_, ?_⟩
        · rw [List.length_dropLast, hLlen]
          simp only [List.length_append, List.length_singleton]
          omega
        · intro x hx hnx
          rcases List.mem_append.mp hx with hxp | hxr
          · by_cases hxl : x ∈ l
            · have hxm : x = L.getLast hLne :=
                hinL_or x ((hLmem x).mpr (Or.inr hxl)) hnx
              intro y hy
              rw [hxm]
              exact hstrict y hy
            · have hold := hexcl x hxp hxl
              intro y hy
              have hyL : y ∈ L := (List.dropLast_sublist L).mem hy
              rcases (hLmem y).mp hyL with hyr | hyl
              · have hlt : d record.key record.provider <
                    d record.key (l.get ⟨i, hi2⟩).provider := of_decide_eq_true hp2
                have hgl : l.get ⟨i, hi2⟩ ∈ l := l.get_mem _ _
                have := hold _ hgl
                rw [hyr]
                omega
              · exact hold y hyl
          · have hxm : x = L.getLast hLne := by
              have hxrec : x = record := List.mem_singleton.mp hxr
              exact hinL_or x ((hLmem x).mpr (Or.inl hxrec)) hnx
            intro y hy
            rw [hxm]
            exact hstrict y hy
      · rw [if_neg hover]
        have hroom : l.length < maxP := by omega
        have hlenp : l.length = processed.length := by omega
        refine ⟨hLsort, hLnodup, hLsub, ?_, ?_⟩
        · rw [hLlen]
          simp only [List.length_append, List.length_singleton]
          omega
        · intro x hx hnx
          exfalso
          rcases List.mem_append.mp hx with hxp | hxr
          · by_cases hxl : x ∈ l
            · exact hnx ((hLmem x).mpr (Or.inr hxl))
            · have hsub : List.Subperm l processed := List.Nodup.subperm hnodup hmem
              have hperm := hsub.perm_of_length_le (by omega)
              exact hxl (hperm.mem_iff.mpr hxp)
          · exact hnx ((hLmem x).mpr (Or.inl (List.mem_singleton.mp hxr)))

theorem closest_fold {d : Dist} {k : RecordKey} {maxP : Nat} :
    ∀ (rest processed l : List ProviderRecord),
    Closest d k maxP processed l →
    (∀ r ∈ rest, r.key = k) →
    ((processed ++ rest).map (fun r => r.provider)).Nodup →
    ((processed ++ rest).map (fun r => d k r.provider)).Nodup →
    Closest d k maxP (processed ++ rest)
      (rest.foldl (fun acc r => listStep d maxP r acc) l) := by
  intro rest
  induction rest with
  | nil =>
      intro processed l hC _ _ _
      simpa using hC
  | cons r rest' ih =>
      intro processed l hC hkeys hprov hdist
      have hfp : ∀ x ∈ processed, x.provider ≠ r.provider := by
        intro x hx heq
        rw [List.map_append, List.nodup_append] at hprov
        have h2 : x.provider ∈ (r :: rest').map (fun r => r.provider) := by
          rw [heq]
          exact List.mem_map_of_mem _ (List.mem_cons_self r rest')
        exact hprov.2.2 (List.mem_map_of_mem _ hx) h2
      have hfd : ∀ x ∈ processed, d k x.provider ≠ d k r.provider := by
        intro x hx heq
        rw [List.map_append, List.nodup_append] at hdist
        have h2 : d k x.provider ∈ (r :: rest').map (fun y => d k y.provider) := by
          rw [heq]
          exact List.mem_map_of_mem _ (List.mem_cons_self r rest')
        exact hdist.2.2 (List.mem_map_of_mem _ hx) h2
      have hinj : ∀ x ∈ processed, ∀ y ∈ processed,
          d k x.provider = d k y.provider → x = y := by
        have hnd : (processed.map (fun y => d k y.provider)).Nodup := by
          rw [List.map_append, List.nodup_append] at hdist
          exact hdist.1
        exact List.inj_on_of_nodup_map hnd
      have hstep := closest_step (hkeys r (List.mem_cons_self r rest')) hC hfp hfd hinj
      have hih := ih (processed ++ [r]) (listStep d maxP r l) hstep
        (fun x hx => hkeys x (List.mem_cons_of_mem _ hx))
        (by simpa using hprov)
        (by simpa using hdist)
      simpa using hih

theorem run_adds_single_key {d : Dist} {k : RecordKey} {cfg : StoreConfig} :
    ∀ (rs : List ProviderRecord) (s : Store) (l : List ProviderRecord),
    s.config = cfg →
    (∀ r ∈ rs, r.key = k) →
    s.providers = [(k, l)] →
    (run d s (rs.map Op.addProvider)).providers =
      [(k, rs.foldl (fun acc r => listStep d cfg.max_providers_per_key r acc) l)] := by
  intro rs
  induction rs with
  | nil =>
      intro s l _ _ hprov
      simpa using hprov
  | cons r rest ih =>
      intro s l hcfg hkeys hprov
      have hget : getEntry s.providers r.key = some l := by
        rw [hprov, hkeys r (List.mem_cons_self r rest)]
        simp [getEntry]
      have hstep : step d s (.addProvider r) = addProviderBody d s r l := by
        rcases addProvider_cases d s r with ⟨l', hget', heq⟩ | ⟨hget', _, _⟩ | ⟨hget', _, _⟩
        · rw [hget] at hget'
          injection hget' with h
          subst h
          simp [step, heq]
        · rw [hget] at hget'
          cases hget'
        · rw [hget] at hget'
          cases hget'
      have hprov' : (step d s (.addProvider r)).providers =
          [(k, listStep d cfg.max_providers_per_key r l)] := by
        rw [hstep, (addProviderBody_providers d s r l).1, hprov,
          hkeys r (List.mem_cons_self r rest), hcfg]
        simp [setEntry]
      have hcfg' : (step d s (.addProvider r)).config = cfg :=
        (step_config d s _).trans hcfg
      have := ih (step d s (.addProvider r)) (listStep d cfg.max_providers_per_key r l)
        hcfg' (fun x hx => hkeys x (List.mem_cons_of_mem _ hx)) hprov'
      simpa using this

/-- C4: with `max_providers_per_key = N`, adding N+1 records for one key
(pairwise distinct providers and pairwise distinct distances), in any
order, leaves exactly the N closest providers: the resulting list has
length N, the unique farthest record is absent, every other record is
present, and nothing else is present. -/
theorem eviction_keeps_closest (d : Dist) (lk : PeerId) (cfg : StoreConfig)
    (k : RecordKey) (rs : List ProviderRecord) (far : ProviderRecord)
    (hmpk : 1 ≤ cfg.max_provided_keys)
    (hlen : rs.length = cfg.max_providers_per_key + 1)
    (hkeys : ∀ r ∈ rs, r.key = k)
    (hprovd : (rs.map (fun r => r.provider)).Nodup)
    (hdist : (rs.map (fun r => d k r.provider)).Nodup)
    (hfar : far ∈ rs)
    (hmax : ∀ r ∈ rs, r ≠ far → d k r.provider < d k far.provider) :
    (providersOf (run d (Store.withConfig lk cfg) (rs.map Op.addProvider)) k).length =
      cfg.max_providers_per_key ∧
    far ∉ providersOf (run d (Store.withConfig lk cfg) (rs.map Op.addProvider)) k ∧
    (∀ r ∈ rs, r ≠ far →
      r ∈ providersOf (run d (Store.withConfig lk cfg) (rs.map Op.addProvider)) k) ∧
    (∀ r ∈ providersOf (run d (Store.withConfig lk cfg) (rs.map Op.addProvider)) k,
      r ∈ rs ∧ r ≠ far) := by
  cases rs with
  | nil => simp at hlen
  | cons r0 rest =>
  have hkey0 : r0.key = k := hkeys r0 (List.mem_cons_self r0 rest)
  have hstep0 : (step d (Store.withConfig lk cfg) (.addProvider r0)).providers =
      [(k, listStep d cfg.max_providers_per_key r0 [])] := by
    rcases addProvider_cases d (Store.withConfig lk cfg) r0 with
      ⟨l', hget', _⟩ | ⟨_, hcap', _⟩ | ⟨_, _, heq⟩
    · simp [Store.withConfig, getEntry] at hget'
    · simp [Store.withConfig] at hcap'
      omega
    · have h1 : step d (Store.withConfig lk cfg) (Op.addProvider r0) =
          addProviderBody d (Store.withConfig lk cfg) r0 [] := by
        simp [step, heq]
      rw [h1, (addProviderBody_providers d (Store.withConfig lk cfg) r0 []).1, hkey0]
      rfl
  have hrun : (run d (Store.withConfig lk cfg)
      ((r0 :: rest).map Op.addProvider)).providers =
      [(k, (r0 :: rest).foldl
        (fun acc r => listStep d cfg.max_providers_per_key r acc) [])] := by
    show (run d (step d (Store.withConfig lk cfg) (.addProvider r0))
      (rest.map Op.addProvider)).providers = _
    exact run_adds_single_key rest _ _
      ((step_config d _ _).trans rfl)
      (fun x hx => hkeys x (List.mem_cons_of_mem _ hx)) hstep0
  have hPof : providersOf (run d (Store.withConfig lk cfg)
      ((r0 :: rest).map Op.addProvider)) k =
      (r0 :: rest).foldl (fun acc r => listStep d cfg.max_providers_per_key r acc) [] := by
    unfold providersOf
    rw [hrun]
    simp [getEntry]
  rw [hPof]
  have hC0 : Closest d k cfg.max_providers_per_key [] [] :=
    ⟨List.Pairwise.nil, List.nodup_nil, fun x hx => absurd hx (List.not_mem_nil x),
     by simp, fun x hx => absurd hx (List.not_mem_nil x)⟩
  have hC := closest_fold (r0 :: rest) [] [] hC0 hkeys (by simpa using hprovd)
    (by simpa using hdist)
  rw [List.nil_append] at hC
  obtain ⟨hsort, hnodup, hmem, hlenL, hexcl⟩ := hC
  set L := (r0 :: rest).foldl (fun acc r => listStep d cfg.max_providers_per_key r acc) []
    with hLdef
  have hrsnodup : (r0 :: rest).Nodup := List.Nodup.of_map _ hprovd
  have hlenL' : L.length = cfg.max_providers_per_key := by
    rw [hlenL, hlen]
    omega
  have hmiss : ∃ x ∈ r0 :: rest, x ∉ L := by
    by_contra h
    push_neg at h
    have hsub : List.Subperm (r0 :: rest) L := List.Nodup.subperm hrsnodup h
    have := hsub.length_le
    omega
  obtain ⟨x, hxrs, hxL⟩ := hmiss
  have htwo : ∀ a ∈ r0 :: rest, ∀ b ∈ r0 :: rest, a ≠ b → a ∉ L → b ∉ L → False := by
    intro a ha b hb hab haL hbL
    have hnodup2 : (L ++ [a, b]).Nodup := by
      rw [List.nodup_append]
      refine ⟨hnodup, by simp [hab], fun c hc hc2 => ?_⟩
      simp at hc2
      rcases hc2 with rfl | rfl
      · exact haL hc
      · exact hbL hc
    have hsub2 : List.Subperm (L ++ [a, b]) (r0 :: rest) := by
      refine List.Nodup.subperm hnodup2 ?_
      intro c hc
      rcases List.mem_append.mp hc with hc | hc
      · exact hmem c hc
      · simp at hc
        rcases hc with rfl | rfl
        · exact ha
        · exact hb
    have := hsub2.length_le
    simp at this
    have hlen' : rest.length + 1 = cfg.max_providers_per_key + 1 := by simpa using hlen
    omega
  have hxfar : x = far := by
    by_contra hne
    have hlt := hmax x hxrs hne
    by_cases hfL : far ∈ L
    · have := hexcl x hxrs hxL far hfL
      omega
    · exact htwo x hxrs far hfar hne hxL hfL
  subst hxfar
  refine ⟨hlenL', hxL, ?_, ?_⟩
  · intro r hr hrne
    by_contra hrL
    exact htwo r hr x hxrs hrne hrL hxL
  · intro r hr
    refine ⟨hmem r hr, fun hre => ?_⟩
    rw [hre] at hr
    exact hxL hr

/-- C4 witness: the spec's concrete scenario — `max_providers_per_key = 2`,
providers at distances 5, 3 and 1 added in that order for key 0; the
distance-5 provider is evicted. -/
theorem eviction_keeps_closest_witness :
    (providersOf (run (fun _ p => p)
        (Store.withConfig 99
          { max_records := 1024, max_value_bytes := 65536,
            max_providers_per_key := 2, max_provided_keys := 1024 })
        ([{ key := 0, provider := 5, expires := none, addresses := [] },
          { key := 0, provider := 3, expires := none, addresses := [] },
          { key := 0, provider := 1, expires := none, addresses := [] }].map
          Op.addProvider)) 0).length = 2 ∧
    ({ key := 0, provider := 5, expires := none, addresses := [] } : ProviderRecord) ∉
      providersOf (run (fun _ p => p)
        (Store.withConfig 99
          { max_records := 1024, max_value_bytes := 65536,
            max_providers_per_key := 2, max_provided_keys := 1024 })
        ([{ key := 0, provider := 5, expires := none, addresses := [] },
          { key := 0, provider := 3, expires := none, addresses := [] },
          { key := 0, provider := 1, expires := none, addresses := [] }].map
          Op.addProvider)) 0 ∧
    (∀ r ∈ [{ key := 0, provider := 5, expires := none, addresses := [] },
            { key := 0, provider := 3, expires := none, addresses := [] },
            { key := 0, provider := 1, expires := none, addresses := [] }],
      r ≠ { key := 0, provider := 5, expires := none, addresses := [] } →
      r ∈ providersOf (run (fun _ p => p)
        (Store.withConfig 99
          { max_records := 1024, max_value_bytes := 65536,
            max_providers_per_key := 2, max_provided_keys := 1024 })
        ([{ key := 0, provider := 5, expires := none, addresses := [] },
          { key := 0, provider := 3, expires := none, addresses := [] },
          { key := 0, provider := 1, expires := none, addresses := [] }].map
          Op.addProvider)) 0) ∧
    (∀ r ∈ providersOf (run (fun _ p => p)
        (Store.withConfig 99
          { max_records := 1024, max_value_bytes := 65536,
            max_providers_per_key := 2, max_provided_keys := 1024 })
        ([{ key := 0, provider := 5, expires := none, addresses := [] },
          { key := 0, provider := 3, expires := none, addresses := [] },
          { key := 0, provider := 1, expires := none, addresses := [] }].map
          Op.addProvider)) 0,
      r ∈ [{ key := 0, provider := 5, expires := none, addresses := [] },
           { key := 0, provider := 3, expires := none, addresses := [] },
           { key := 0, provider := 1, expires := none, addresses := [] }] ∧
      r ≠ { key := 0, provider := 5, expires := none, addresses := [] }) :=
  eviction_keeps_closest (fun _ p => p) 99
    { max_records := 1024, max_value_bytes := 65536,
      max_providers_per_key := 2, max_provided_keys := 1024 }
    0
    [{ key := 0, provider := 5, expires := none, addresses := [] },
     { key := 0, provider := 3, expires := none, addresses := [] },
     { key := 0, provider := 1, expires := none, addresses := [] }]
    { key := 0, provider := 5, expires := none, addresses := [] }
    (by decide) (by decide) (by decide) (by decide) (by decide) (by decide) (by decide)

/-- C1: after any finite sequence of store operations from a fresh store,
`providers(k)` is sorted ascending by distance to `k` and never longer
than `max_providers_per_key`. -/
theorem providers_sorted_and_bounded (d : Dist) (lk : PeerId) (cfg : StoreConfig)
    (ops : List Op) (k : RecordKey) :
    (providersOf (run d (Store.withConfig lk cfg) ops) k).Pairwise
      (fun a b => d k a.provider ≤ d k b.provider) ∧
    (providersOf (run d (Store.withConfig lk cfg) ops) k).length ≤
      cfg.max_providers_per_key := by
  have hG := tableGood_run d ops (Store.withConfig lk cfg) rfl (tableGood_init d lk cfg)
  unfold providersOf
  cases hget : getEntry (run d (Store.withConfig lk cfg) ops).providers k with
  | none => exact ⟨List.Pairwise.nil, Nat.zero_le _⟩
  | some l =>
      have hE : EntryGood d cfg k l := hG.2 _ (getEntry_mem hget)
      exact ⟨hE.2.1, hE.2.2.1⟩

/-- C3: `add_provider` fails exactly when the record's key is vacant and
the table already holds `max_provided_keys` keys, and the only possible
failure is `MaxProvidedKeys`; table keys are always distinct; and in the
concrete scenario with `max_provided_keys = 1`, adding a provider for key
1 succeeds, a subsequent add for key 2 fails with `MaxProvidedKeys`,
removing key 1's only provider drops its entry, and the add for key 2
then succeeds. -/
theorem add_provider_capacity_check :
    (∀ (d : Dist) (s : Store) (record : ProviderRecord),
      (errOf (addProvider d s record) = some StoreError.maxProvidedKeys ↔
        getEntry s.providers record.key = none ∧
        s.providers.length = s.config.max_provided_keys) ∧
      (errOf (addProvider d s record) = none ∨
        errOf (addProvider d s record) = some StoreError.maxProvidedKeys)) ∧
    (∀ (d : Dist) (lk : PeerId) (cfg : StoreConfig) (ops : List Op),
      ((run d (Store.withConfig lk cfg) ops).providers.map Prod.fst).Nodup) ∧
    (errOf (addProvider (fun _ p => p)
        (Store.withConfig 99
          { max_records := 1024, max_value_bytes := 65536,
            max_providers_per_key := 20, max_provided_keys := 1 })
        { key := 1, provider := 10, expires := none, addresses := [] }) = none ∧
      errOf (addProvider (fun _ p => p)
        (run (fun _ p => p)
          (Store.withConfig 99
            { max_records := 1024, max_value_bytes := 65536,
              max_providers_per_key := 20, max_provided_keys := 1 })
          [.addProvider { key := 1, provider := 10, expires := none, addresses := [] }])
        { key := 2, provider := 20, expires := none, addresses := [] }) =
          some StoreError.maxProvidedKeys ∧
      getEntry (run (fun _ p => p)
          (Store.withConfig 99
            { max_records := 1024, max_value_bytes := 65536,
              max_providers_per_key := 20, max_provided_keys := 1 })
          [.addProvider { key := 1, provider := 10, expires := none, addresses := [] },
           .removeProvider 1 10]).providers 1 = none ∧
      errOf (addProvider (fun _ p => p)
        (run (fun _ p => p)
          (Store.withConfig 99
            { max_records := 1024, max_value_bytes := 65536,
              max_providers_per_key := 20, max_provided_keys := 1 })
          [.addProvider { key := 1, provider := 10, expires := none, addresses := [] },
           .removeProvider 1 10])
        { key := 2, provider := 20, expires := none, addresses := [] }) = none) := by
  refine ⟨fun d s record => ?_, fun d lk cfg ops => ?_, rfl, rfl, rfl, rfl⟩
  · rcases addProvider_cases d s record with ⟨l, hget, heq⟩ | ⟨hget, hcap, heq⟩ |
      ⟨hget, hcap, heq⟩
    · rw [heq]
      constructor
      · constructor
        · intro h
          cases h
        · intro ⟨h1, _⟩
          rw [hget] at h1
          cases h1
      · exact Or.inl rfl
    · rw [heq]
      exact ⟨⟨fun _ => ⟨hget, hcap.symm⟩, fun _ => rfl⟩, Or.inr rfl⟩
    · rw [heq]
      constructor
      · constructor
        · intro h
          cases h
        · intro ⟨_, h2⟩
          exact absurd h2.symm hcap
      · exact Or.inl rfl
  · exact (tableGood_run d ops (Store.withConfig lk cfg) rfl (tableGood_init d lk cfg)).1

/-- C10: with a positive `max_providers_per_key`, every key present in
the provider table of a store driven from fresh maps to a non-empty list;
with `max_providers_per_key = 0`, `add_provider` for a vacant key (below
the key cap) succeeds without storing the record yet creates an empty
entry that consumes a key slot, and from a fresh store every table entry
stays empty forever. -/
theorem provider_entry_emptiness :
    (∀ (d : Dist) (lk : PeerId) (cfg : StoreConfig) (ops : List Op) (k : RecordKey)
      (l : List ProviderRecord),
      1 ≤ cfg.max_providers_per_key →
      getEntry (run d (Store.withConfig lk cfg) ops).providers k = some l → l ≠ []) ∧
    (∀ (d : Dist) (s : Store) (record : ProviderRecord),
      s.config.max_providers_per_key = 0 →
      getEntry s.providers record.key = none →
      s.config.max_provided_keys ≠ s.providers.length →
      ∃ s', addProvider d s record = .ok s' ∧
        getEntry s'.providers record.key = some [] ∧
        providersOf s' record.key = [] ∧
        s'.providers.length = s.providers.length + 1) ∧
    (∀ (d : Dist) (lk : PeerId) (cfg : StoreConfig) (ops : List Op) (k : RecordKey)
      (l : List ProviderRecord),
      cfg.max_providers_per_key = 0 →
      getEntry (run d (Store.withConfig lk cfg) ops).providers k = some l → l = []) := by
  refine ⟨fun d lk cfg ops k l hmax hget => ?_, fun d s record h0 hget hcap => ?_,
    fun d lk cfg ops k l h0 hget => ?_⟩
  · have hG := tableGood_run d ops (Store.withConfig lk cfg) rfl (tableGood_init d lk cfg)
    exact (hG.2 _ (getEntry_mem hget)).2.2.2.1 hmax
  · rcases addProvider_cases d s record with ⟨l, hget', _⟩ | ⟨_, hcap', _⟩ | ⟨_, _, heq⟩
    · rw [hget] at hget'
      cases hget'
    · exact absurd hcap' hcap
    · have hprov := (addProviderBody_providers d s record []).1
      rw [listStep_eq_nil_zero h0 rfl] at hprov
      refine ⟨addProviderBody d s record [], heq, ?_, ?_, ?_⟩
      · rw [hprov]
        exact getEntry_setEntry_self s.providers record.key []
      · unfold providersOf
        rw [hprov, getEntry_setEntry_self]
        rfl
      · rw [hprov]
        exact length_setEntry_of_vacant [] hget
  · have hG := tableGood_run d ops (Store.withConfig lk cfg) rfl (tableGood_init d lk cfg)
    exact (hG.2 _ (getEntry_mem hget)).2.2.2.2 h0

/-- C8: encoding an expiry exactly 2^32 seconds in the future wraps the
persisted ttl (`as u32`) to 0, so the record decodes as never-expiring —
contradicting both the claim and the source's own comment that 1 is the
minimum ttl when `expires` is set. -/
theorem ttl_wraps_to_zero_bug :
    recordToEntry 0 { key := 1, value := [2], publisher := none, expires := some 4294967296 } =
      { key := 1, record := { value := [2], publisher := [], ttl := 0 } } ∧
    entryToRecord 0 { key := 1, record := { value := [2], publisher := [], ttl := 0 } } =
      .ok { key := 1, value := [2], publisher := none, expires := none } := by
  constructor <;> rfl

/-- C7 counterexample: decoding an entry whose persisted publisher bytes
are non-empty but not a valid peer id panics (the source's
`.expect("Invalid peer ID")`) instead of returning an explicit
`DecodeError` result. -/
theorem publisher_decode_panics_cex :
    entryToRecord 0 { key := 1, record := { value := [], publisher := [0], ttl := 7 } } =
      .panics := by
  rfl

/-- C7 amended: a publisher of `None` encodes as the empty byte sequence
and an empty persisted publisher decodes back to `None`; but a non-empty
persisted publisher that is not a valid node identifier makes the decode
panic (a process abort via `.expect`), not fail with an explicit
`DecodeError` result. -/
theorem publisher_codec_amended (now : Nat) (r : KadRecord) (e : Entry) :
    (r.publisher = none → (recordToEntry now r).record.publisher = []) ∧
    (e.record.publisher = [] →
      ∃ r', entryToRecord now e = .ok r' ∧ r'.publisher = none) ∧
    (e.record.publisher ≠ [] → peerIdFromBytes e.record.publisher = none →
      entryToRecord now e = .panics) := by
  refine ⟨fun h => ?_, fun h => ?_, fun h1 h2 => ?_⟩
  · simp [recordToEntry, h]
  · exact ⟨{ key := e.key, value := e.record.value, publisher := none,
             expires := if 0 < e.record.ttl then some (now + e.record.ttl) else none },
           by simp [entryToRecord, h], rfl⟩
  · simp [entryToRecord, h1, h2, List.isEmpty_iff]

/-- C9 counterexample: on a failing database call, `get` returns `None`
(the error is logged and mapped to absence, indistinguishable from a
missing record) and `put` returns `ValueTooLarge` (a different error
kind) — neither wraps and propagates the database failure as-is. -/
theorem error_propagation_cex :
    getResult (.error .ioError) 0 = .ok none ∧
    getResult (.ok none) 0 = .ok none ∧
    putResult { max_records := 1024, max_value_bytes := 65536,
                max_providers_per_key := 20, max_provided_keys := 1024 }
        { key := 1, value := [2], publisher := none, expires := none } 0
        (fun _ => .error .ioError) = .error .valueTooLarge := by
  refine ⟨rfl, rfl, ?_⟩
  rfl

/-- C9 amended: when the external persistent store fails, `get` logs the
error and returns `None` (mapping the failure to absence), `put` maps the
failure to `ValueTooLarge`, and `remove` swallows it entirely. -/
theorem error_mapping_amended (e : DbError) (now : Nat) (cfg : StoreConfig) (r : KadRecord) :
    getResult (.error e) now = .ok none ∧
    getResult (.ok none) now = .ok none ∧
    (r.value.length < cfg.max_value_bytes →
      putResult cfg r now (fun _ => .error e) = .error .valueTooLarge) ∧
    removeResult (.error e) = removeResult (.ok ()) := by
  refine ⟨rfl, rfl, fun h => ?_, rfl⟩
  simp [putResult, Nat.not_le.mpr h]

/-- C5: `put` of a record whose value has at least `max_value_bytes`
bytes fails with `ValueTooLarge` and leaves the whole stored state
unchanged; a smaller record passes the size check and overwrites the
record at its key, leaving every other key unchanged. -/
theorem put_size_check (s : Store) (now : Nat) (r : KadRecord) :
    (s.config.max_value_bytes ≤ r.value.length →
      Store.put s now r = (.error .valueTooLarge, s)) ∧
    (r.value.length < s.config.max_value_bytes →
      (Store.put s now r).1 = .ok () ∧
      ∀ k, (Store.put s now r).2.records k =
        if k = r.key then some (recordToEntry now r).record else s.records k) := by
  constructor
  · intro h
    simp [Store.put, h]
  · intro h
    constructor
    · simp [Store.put, Nat.not_le.mpr h]
    · intro k
      simp [Store.put, Nat.not_le.mpr h, recordToEntry]

/-- C6 counterexample: a record whose expiry lies in the past (expiry 50,
put and got at instant 100) round-trips to expiry 101 (the encoder
saturates the elapsed duration at zero and clamps the ttl to 1 second),
which is not within one second of the original expiry. -/
theorem put_get_roundtrip_cex :
    Store.get
        (Store.put
          (Store.withConfig 0
            { max_records := 1024, max_value_bytes := 65536,
              max_providers_per_key := 20, max_provided_keys := 1024 })
          100 { key := 1, value := [2], publisher := none, expires := some 50 }).2
        100 1 =
      .ok (some { key := 1, value := [2], publisher := none, expires := some 101 }) ∧
    ¬ near 101 50 := by
  exact ⟨rfl, by decide⟩

/-- C6 amended: for a record below the size limit whose expiry (when
present) is neither in the past nor 2^32 or more seconds away, `put`
followed by `get` at the same instant returns a record with the same key,
value and publisher; a `None` expiry round-trips to `None` and a `Some`
expiry decodes to an instant within one second of the original. -/
theorem put_get_roundtrip_amended (s : Store) (now : Nat) (r : KadRecord)
    (hsize : r.value.length < s.config.max_value_bytes)
    (hexp : match r.expires with
            | none => True
            | some t => now ≤ t ∧ t - now < 4294967296) :
    ∃ r', Store.get (Store.put s now r).2 now r.key = .ok (some r') ∧
      r'.key = r.key ∧ r'.value = r.value ∧ r'.publisher = r.publisher ∧
      (r.expires = none → r'.expires = none) ∧
      (∀ t, r.expires = some t → ∃ t', r'.expires = some t' ∧ near t t') := by
  have hput : (Store.put s now r).2.records r.key = some (recordToEntry now r).record := by
    simp [Store.put, Nat.not_le.mpr hsize, recordToEntry]
  have hpub : ∃ pb, (recordToEntry now r).record.publisher = pb ∧
      (r.publisher = none → pb = []) ∧
      (∀ p, r.publisher = some p → pb = [1, p]) := by
    cases hp : r.publisher <;>
      simp [recordToEntry, hp, peerIdToBytes]
  obtain ⟨pb, hpb, hpbn, hpbs⟩ := hpub
  refine ⟨{ key := r.key, value := r.value, publisher := r.publisher,
            expires := if 0 < (recordToEntry now r).record.ttl
              then some (now + (recordToEntry now r).record.ttl) else none },
          ?_, rfl, rfl, rfl, ?_, ?_⟩
  · simp only [Store.get, hput, Option.map_some']
    cases hp : r.publisher with
    | none =>
        have hb : pb = [] := hpbn hp
        simp [getResult, entryToRecord, hpb, hb, recordToEntry, hp]
    | some p =>
        have hb : pb = [1, p] := hpbs p hp
        simp [getResult, entryToRecord, hpb, hb, peerIdToBytes, peerIdFromBytes,
          recordToEntry, hp]
  · intro he
    simp [recordToEntry, he]
  · intro t ht
    have hexp' : now ≤ t ∧ t - now < 4294967296 := by rw [ht] at hexp; exact hexp
    have hlt : max (t - now) 1 < 4294967296 := max_lt hexp'.2 (by norm_num)
    have httl : (recordToEntry now r).record.ttl = max (t - now) 1 := by
      simp [recordToEntry, ht, Nat.mod_eq_of_lt hlt]
    have hpos : 0 < (recordToEntry now r).record.ttl := by
      rw [httl]; exact lt_of_lt_of_le Nat.zero_lt_one (le_max_right _ _)
    refine ⟨now + (recordToEntry now r).record.ttl, by simp [hpos], ?_⟩
    rw [httl]
    rcases Nat.eq_zero_or_pos (t - now) with h0 | h1
    · have hmax : max (t - now) 1 = 1 := by simp [h0]
      rw [hmax]
      exact ⟨by omega, by omega⟩
    · rw [Nat.max_eq_left h1]
      exact ⟨by omega, by omega⟩

/-- C6 witness: the amended round-trip at a concrete record with a
publisher and a future expiry. -/
theorem put_get_roundtrip_witness :
    ∃ r', Store.get
        (Store.put
          (Store.withConfig 0
            { max_records := 1024, max_value_bytes := 10,
              max_providers_per_key := 20, max_provided_keys := 1024 })
          100 { key := 5, value := [1, 2], publisher := some 9, expires := some 130 }).2
        100 5 = .ok (some r') ∧
      r'.key = 5 ∧ r'.value = [1, 2] ∧ r'.publisher = some 9 ∧
      ((some 130 : Option Nat) = none → r'.expires = none) ∧
      (∀ t, (some 130 : Option Nat) = some t → ∃ t', r'.expires = some t' ∧ near t t') :=
  put_get_roundtrip_amended
    (Store.withConfig 0
      { max_records := 1024, max_value_bytes := 10,
        max_providers_per_key := 20, max_provided_keys := 1024 })
    100 { key := 5, value := [1, 2], publisher := some 9, expires := some 130 }
    (by decide) ⟨by decide, by decide⟩

/-- C2: the local provided set is not kept in sync on an in-place
update.  The local peer 7 adds a provider record for key 1, then adds an
updated record for the same (key, provider) pair: the provider table now
holds only the updated record while the provided set still holds the
stale original — contradicting the source's own comment that `provided`
must be kept in sync with `providers`. -/
theorem provided_set_sync_bug :
    providersOf
        (run (fun _ p => p)
          (Store.withConfig 7
            { max_records := 1024, max_value_bytes := 65536,
              max_providers_per_key := 20, max_provided_keys := 1024 })
          [.addProvider { key := 1, provider := 7, expires := none, addresses := [] },
           .addProvider { key := 1, provider := 7, expires := some 5, addresses := [] }])
        1 =
      [{ key := 1, provider := 7, expires := some 5, addresses := [] }] ∧
    (run (fun _ p => p)
          (Store.withConfig 7
            { max_records := 1024, max_value_bytes := 65536,
              max_providers_per_key := 20, max_provided_keys := 1024 })
          [.addProvider { key := 1, provider := 7, expires := none, addresses := [] },
           .addProvider { key := 1, provider := 7, expires := some 5, addresses := [] }]).provided =
      [{ key := 1, provider := 7, expires := none, addresses := [] }] ∧
    ({ key := 1, provider := 7, expires := none, addresses := [] } : ProviderRecord) ≠
      { key := 1, provider := 7, expires := some 5, addresses := [] } := by
  refine ⟨?_, ?_, by decide⟩ <;> rfl

end KadStore
